import Mathlib

/-!
Verification of the audio loopback / tone-detection core of the
jingpad-bsp/android_external_autotest repository, as a shallow embedding.

Embedded sources:
* client/deps/test_tones/src/tone_generators.cc  (sample encoding, fade envelope)
* client/deps/test_tones/src/alsa_client.cc      (sample decoding)
* client/deps/test_tones/src/alsa_client.h       (CircularBuffer)
* client/deps/test_tones/src/audiofuntest.cc     (matched filter, loop control)
* client/deps/audioloop/src/looptest.c           (bounded producer/consumer ring)
* client/deps/audioloop/src/loopback_latency.c   (subtract_timevals)

C doubles are modelled as exact rationals (for codec arithmetic, which the
claims compare against exact quantization bounds) or reals (for sin/sqrt
based signal processing); C machine integers are modelled as Nat/Int with
explicit truncation, Euclidean remainder for bit masking, and flooring
division for arithmetic right shifts.
-/

namespace AutotestAudio

/-! ## SampleFormat (common.h) -/

/-- SampleFormat::Type from common.h. -/
inductive SampleFormat where
  | kPcmInvalid
  | kPcmU8
  | kPcmS16
  | kPcmS24
  | kPcmS32
  deriving DecidableEq, Repr

/-- Truncation of a rational toward zero: the effect of a C cast from
double to a (wide enough) integer type.  Int division of the reduced
numerator by the (positive) denominator truncates toward zero. -/
def itrunc (q : ℚ) : ℤ :=
  q.num / (q.den : ℤ)

/-! ## Sample encoding (tone_generators.cc, WriteSample / WriteSampleForFormat)

The template WriteSample<T> maps magnitude into [0,1] first when T is
unsigned, then stores magnitude * numeric_limits<T>::max() through a C
cast (truncation toward zero).  The S24 branch of WriteSampleForFormat
hand-packs 3 little-endian bytes of the int32 value magnitude * (1<<23):
`value & 0xff` is the Euclidean remainder mod 256 of the two's-complement
value, and `value >> 8` is an arithmetic shift, i.e. flooring division. -/

/-- WriteSample<unsigned char>: the stored byte. -/
def WriteSampleU8 (m : ℚ) : ℤ :=
  itrunc ((m + 1) / 2 * 255)

/-- WriteSample<int16_t>: the stored 16-bit sample. -/
def WriteSampleS16 (m : ℚ) : ℤ :=
  itrunc (m * 32767)

/-- WriteSample<int32_t>: the stored 32-bit sample. -/
def WriteSampleS32 (m : ℚ) : ℤ :=
  itrunc (m * 2147483647)

/-- The kPcmS24 branch of WriteSampleForFormat: three little-endian bytes
of value = magnitude * (1 << 23), as written to sample_data[0..2]. -/
def WriteSampleS24 (m : ℚ) : List ℤ :=
  let value := itrunc (m * 8388608)
  [value.emod 256, (value.fdiv 256).emod 256, (value.fdiv 65536).emod 256]

/-- WriteSampleForFormat (tone_generators.cc).  The result is the list of
stored sample bytes for S24, or the single stored (typed) sample value for
the other formats; none models the assert(false) abort path taken for an
unrecognized format. -/
def WriteSampleForFormat (format : SampleFormat) (magnitude : ℚ) :
    Option (List ℤ) :=
  match format with
  | .kPcmU8 => some [WriteSampleU8 magnitude]
  | .kPcmS16 => some [WriteSampleS16 magnitude]
  | .kPcmS24 => some (WriteSampleS24 magnitude)
  | .kPcmS32 => some [WriteSampleS32 magnitude]
  | .kPcmInvalid => none

/-! ## Sample decoding (alsa_client.cc, SampleToMagnitude / SampleCellToDoubleCell) -/

/-- SampleToMagnitude<unsigned char>: sample / max, then val * 2 - 1
because numeric_limits<unsigned char>::min() == 0. -/
def SampleToMagnitudeU8 (sample : ℤ) : ℚ :=
  (sample : ℚ) / 255 * 2 - 1

/-- SampleToMagnitude<int16_t>. -/
def SampleToMagnitudeS16 (sample : ℤ) : ℚ :=
  (sample : ℚ) / 32767

/-- SampleToMagnitude<int32_t>. -/
def SampleToMagnitudeS32 (sample : ℤ) : ℚ :=
  (sample : ℚ) / 2147483647

/-- The inner per-frame loop shared by the U8/S16/S32 branches of
SampleCellToDoubleCell: for frame n the code adds toMag(ptr[n]) once per
channel c (the channel index c is never used in the subscript), then
divides by num_channels when num_channels > 1. -/
def frameValueInt (toMag : ℤ → ℚ) (ptr : List ℤ) (numChannels : ℕ)
    (n : ℕ) : ℚ :=
  let s := (List.range numChannels).foldl
    (fun acc _ => acc + toMag (ptr.getD n 0)) 0
  if 1 < numChannels then s / numChannels else s

/-- The kPcmS24 per-frame loop of SampleCellToDoubleCell: the accumulator
starts at 0 and absorbs bytes ptr[3n+2], ptr[3n+1], ptr[3n] via
value <<= 8; value |= byte (no sign extension), and the same value is
added once per channel. -/
def frameValueS24 (ptr : List ℤ) (numChannels : ℕ) (n : ℕ) : ℚ :=
  let value := (ptr.getD (3 * n + 2) 0) * 65536 +
    (ptr.getD (3 * n + 1) 0) * 256 + ptr.getD (3 * n) 0
  let s := (List.range numChannels).foldl
    (fun acc _ => acc + (value : ℚ) / 8388608) 0
  if 1 < numChannels then s / numChannels else s

/-- SampleCellToDoubleCell (alsa_client.cc).  ptr is the sample cell (a
list of typed sample values for U8/S16/S32, of bytes for S24); prev is the
prior contents of double_cell.  The if/else-if chain has no final else:
for an unrecognized format the function returns with double_cell
untouched, which the prev result models. -/
def SampleCellToDoubleCell (format : SampleFormat) (ptr : List ℤ)
    (numFrames numChannels : ℕ) (prev : List ℚ) : List ℚ :=
  match format with
  | .kPcmU8 =>
      (List.range numFrames).map (frameValueInt SampleToMagnitudeU8 ptr numChannels)
  | .kPcmS16 =>
      (List.range numFrames).map (frameValueInt SampleToMagnitudeS16 ptr numChannels)
  | .kPcmS24 =>
      (List.range numFrames).map (frameValueS24 ptr numChannels)
  | .kPcmS32 =>
      (List.range numFrames).map (frameValueInt SampleToMagnitudeS32 ptr numChannels)
  | .kPcmInvalid => prev

/-- The per-frame arithmetic mean of all channels' decoded magnitudes, as
the spec sentence for SampleCellToDoubleCell describes it (interleaved
sample n * channels + c for channel c of frame n). -/
def specFrameMean (toMag : ℤ → ℚ) (ptr : List ℤ) (numChannels : ℕ)
    (n : ℕ) : ℚ :=
  ((List.range numChannels).map
    (fun c => toMag (ptr.getD (n * numChannels + c) 0))).sum / numChannels

/-! ## C1: multi-channel decoding does not average the channels.

The header alsa_client.h documents SampleCellToDoubleCell with "If there
are two channels, the sample will be averaged", but the channel loop reads
ptr[n] for every channel c, so each output frame is a single interleaved
sample's magnitude, not the mean over the frame's channels. -/

/-- C1: on the stereo S16 cell holding one frame with samples
(16384, -16384) the code produces the single sample magnitude 16384/32767
for frame 0, which differs from the per-frame channel mean 0 that the
claim (and the header comment) promise. -/
theorem C1_stereo_not_averaged :
    SampleCellToDoubleCell .kPcmS16 [16384, -16384] 1 2 [0] =
      [16384 / 32767] ∧
    specFrameMean SampleToMagnitudeS16 [16384, -16384] 2 0 = 0 ∧
    (16384 / 32767 : ℚ) ≠ 0 := by
  refine ⟨?_, ?_, by norm_num⟩
  · norm_num [SampleCellToDoubleCell, frameValueInt, SampleToMagnitudeS16,
      List.range_succ]
  · norm_num [specFrameMean, SampleToMagnitudeS16, List.range_succ]

/-! ## C2: the S24 round-trip breaks on negative magnitudes.

The encoder packs the two's-complement int32 value into 3 bytes, but the
decoder's accumulator rebuilds a non-negative value from the 3 bytes
without sign extension, so every negative magnitude decodes shifted by
+2^24/2^23 = +2. -/

/-- itrunc agrees with the identity on integers. -/
lemma itrunc_intCast (n : ℤ) : itrunc (n : ℚ) = n := by
  simp [itrunc]

/-- The bytes written for magnitude -1/2: value = -4194304 = 0xFFC00000
as an int32, so the 3 little-endian bytes are 00 00 C0. -/
lemma writeSampleS24_neg_half : WriteSampleS24 (-1 / 2) = [0, 0, 192] := by
  have h : ((-1 : ℚ) / 2 * 8388608) = ((-4194304 : ℤ) : ℚ) := by norm_num
  simp only [WriteSampleS24, h, itrunc_intCast]
  decide

/-- C2: encoding magnitude -1/2 in the S24 format and decoding it through
SampleCellToDoubleCell yields 3/2, which is 2 away from -1/2, far beyond
the one-quantization-step bound 1/2^23 the claim asserts. -/
theorem C2_s24_roundtrip_breaks :
    SampleCellToDoubleCell .kPcmS24 (WriteSampleS24 (-1 / 2)) 1 1 [0] =
      [3 / 2] ∧
    ¬ |(3 / 2 : ℚ) - (-1 / 2)| ≤ 1 / 8388608 := by
  constructor
  · rw [writeSampleS24_neg_half]
    norm_num [SampleCellToDoubleCell, frameValueS24, List.range_succ]
  · norm_num [abs_of_nonneg]

/-! ## C8: error handling of the two codec entry points.

WriteSampleForFormat falls into assert(false) for an unrecognized format
(the none case of the embedding).  SampleCellToDoubleCell, however, is an
if/else-if chain with no else: for an unrecognized format it silently
returns, leaving the output cell unwritten — contradicting the claim that
every codec entry point aborts. -/

/-- C8 counterexample: calling the decode entry point with the
unrecognized format kPcmInvalid returns normally with the output cell
exactly as it was (here [7]), instead of aborting. -/
theorem C8_decoder_no_abort :
    SampleCellToDoubleCell .kPcmInvalid [0] 1 1 [7] = [7] := by
  rfl

/-- C8 amended: the encode entry point WriteSampleForFormat fails fast on
an unrecognized format (assert(false), modelled as none), but the decode
entry point SampleCellToDoubleCell silently returns with the output cell
unwritten for an unrecognized format. -/
theorem C8_encoder_aborts_decoder_returns :
    (∀ m : ℚ, WriteSampleForFormat .kPcmInvalid m = none) ∧
    (∀ (ptr : List ℤ) (numFrames numChannels : ℕ) (prev : List ℚ),
      SampleCellToDoubleCell .kPcmInvalid ptr numFrames numChannels prev =
        prev) := by
  exact ⟨fun _ => rfl, fun _ _ _ _ => rfl⟩

/-! ## C10: subtract_timevals (loopback_latency.c) -/

/-- struct timeval, as used by subtract_timevals. -/
structure Timeval where
  tv_sec : ℤ
  tv_usec : ℤ
  deriving DecidableEq, Repr

/-- subtract_timevals (loopback_latency.c): returns 0 if end is before
(or equal, on the microsecond field) beg, otherwise the seconds/micro-
seconds difference with a borrow, flattened to microseconds. -/
def subtract_timevals (e b : Timeval) : ℤ :=
  if e.tv_sec < b.tv_sec ∨ (e.tv_sec = b.tv_sec ∧ e.tv_usec ≤ b.tv_usec) then
    0
  else if e.tv_usec < b.tv_usec then
    (e.tv_sec - b.tv_sec - 1) * 1000000 + (e.tv_usec + 1000000 - b.tv_usec)
  else
    (e.tv_sec - b.tv_sec) * 1000000 + (e.tv_usec - b.tv_usec)

/-- The instant a timeval denotes, in microseconds. -/
def timevalMicros (t : Timeval) : ℤ :=
  t.tv_sec * 1000000 + t.tv_usec

/-- C10: for normalized timevals (0 ≤ tv_usec < 1000000),
subtract_timevals returns 0 when end ≤ beg, returns the exact difference
end − beg in microseconds otherwise, and is never negative. -/
theorem C10_subtract_timevals_exact (e b : Timeval)
    (he0 : 0 ≤ e.tv_usec) (he1 : e.tv_usec < 1000000)
    (hb0 : 0 ≤ b.tv_usec) (hb1 : b.tv_usec < 1000000) :
    (timevalMicros e ≤ timevalMicros b → subtract_timevals e b = 0) ∧
    (timevalMicros b < timevalMicros e →
      subtract_timevals e b = timevalMicros e - timevalMicros b) ∧
    0 ≤ subtract_timevals e b := by
  unfold subtract_timevals timevalMicros
  split_ifs <;> refine ⟨fun h => by omega, fun h => by omega, by omega⟩

/-- C10 witness: end = 3s 200us, beg = 1s 999999us gives exactly
1200201 microseconds. -/
theorem C10_witness :
    (0 : ℤ) ≤ 200 ∧ (200 : ℤ) < 1000000 ∧
    (0 : ℤ) ≤ 999999 ∧ (999999 : ℤ) < 1000000 ∧
    (timevalMicros ⟨1, 999999⟩ < timevalMicros ⟨3, 200⟩ →
      subtract_timevals ⟨3, 200⟩ ⟨1, 999999⟩ =
        timevalMicros ⟨3, 200⟩ - timevalMicros ⟨1, 999999⟩) := by
  refine ⟨by decide, by decide, by decide, by decide, ?_⟩
  exact (C10_subtract_timevals_exact ⟨3, 200⟩ ⟨1, 999999⟩
    (by decide) (by decide) (by decide) (by decide)).2.1

/-! ## C4: confidence accumulation loop (audiofuntest.cc, LoopControl).

The analysis loop body, per capture cell: the per-frame confidence is
added to accum_confidence only when positive, delay is incremented, then
success is declared when accum_confidence >= 3.0, the loop continues when
delay < 15, and otherwise a miss is declared; after success or miss both
delay and accum_confidence are reset to 0. -/

/-- What one analysis frame produced. -/
inductive Outcome where
  | success
  | miss
  | pending
  deriving DecidableEq, Repr

/-- The loop-carried counters of LoopControl (delay, accum_confidence). -/
structure DetectState where
  delay : ℕ
  accum : ℚ
  deriving DecidableEq, Repr

/-- One iteration of the analysis loop for one frame's confidence value. -/
def stepConfidence (s : DetectState) (confidence : ℚ) :
    DetectState × Outcome :=
  let accum := if 0 < confidence then s.accum + confidence else s.accum
  let delay := s.delay + 1
  if 3 ≤ accum then (⟨0, 0⟩, .success)
  else if delay < 15 then (⟨delay, accum⟩, .pending)
  else (⟨0, 0⟩, .miss)

/-- The analysis loop run over a list of per-frame confidences, collecting
the per-frame outcomes. -/
def runFrames (s : DetectState) : List ℚ → DetectState × List Outcome
  | [] => (s, [])
  | c :: rest =>
      let p := stepConfidence s c
      let q := runFrames p.1 rest
      (q.1, p.2 :: q.2)

/-- The contribution of one frame's confidence to the accumulator. -/
def posPart (c : ℚ) : ℚ := if 0 < c then c else 0

/-- Accumulated confidence over a list of frames: the sum of the positive
per-frame confidences. -/
def psum (cs : List ℚ) : ℚ := (cs.map posPart).sum

lemma psum_append (xs ys : List ℚ) : psum (xs ++ ys) = psum xs + psum ys := by
  simp [psum]

lemma psum_cons (c : ℚ) (cs : List ℚ) :
    psum (c :: cs) = posPart c + psum cs := by
  simp [psum]

lemma runFrames_append (s : DetectState) (xs ys : List ℚ) :
    runFrames s (xs ++ ys) =
      ((runFrames (runFrames s xs).1 ys).1,
       (runFrames s xs).2 ++ (runFrames (runFrames s xs).1 ys).2) := by
  induction xs generalizing s with
  | nil => simp [runFrames]
  | cons c rest ih => simp [runFrames, ih]

/-- The accumulator update of one iteration, written with posPart. -/
lemma accum_update (a c : ℚ) :
    (if 0 < c then a + c else a) = a + posPart c := by
  simp only [posPart]
  split <;> simp

/-- The last element of a list extended by one element. -/
lemma getLast_append_one {α : Type} (l : List α) (a : α) :
    (l ++ [a]).getLast? = some a := by
  rw [List.getLast?_append_cons]
  rfl

/-- A run during which the accumulated confidence stays below 3 and the
delay counter stays below 15 produces only pending outcomes and just
advances the counters. -/
lemma runFrames_pending (cs : List ℚ) (d : ℕ) (a : ℚ)
    (hlen : d + cs.length ≤ 14)
    (hconf : ∀ j, 1 ≤ j → j ≤ cs.length → a + psum (cs.take j) < 3) :
    runFrames ⟨d, a⟩ cs =
      (⟨d + cs.length, a + psum cs⟩, List.replicate cs.length .pending) := by
  induction cs generalizing d a with
  | nil => simp [runFrames, psum]
  | cons c rest ih =>
      have h1 : a + posPart c < 3 := by
        have := hconf 1 le_rfl (by simp)
        simpa [psum, posPart] using this
      have hd : d + 1 < 15 := by
        simp only [List.length_cons] at hlen
        omega
      have hstep : stepConfidence ⟨d, a⟩ c =
          (⟨d + 1, a + posPart c⟩, .pending) := by
        simp only [stepConfidence]
        rw [accum_update, if_neg (not_le.2 h1), if_pos hd]
      have hrest : runFrames ⟨d + 1, a + posPart c⟩ rest =
          (⟨(d + 1) + rest.length, (a + posPart c) + psum rest⟩,
           List.replicate rest.length .pending) := by
        refine ih (d + 1) (a + posPart c) ?_ ?_
        · simp only [List.length_cons] at hlen
          omega
        · intro j hj1 hj2
          have := hconf (j + 1) (by omega) (by simpa using Nat.succ_le_succ hj2)
          rw [List.take_succ_cons, psum_cons] at this
          linarith
      simp only [runFrames, hstep, hrest, psum_cons, List.length_cons,
        List.replicate_succ, Prod.mk.injEq, DetectState.mk.injEq]
      exact ⟨⟨by omega, by ring⟩, trivial⟩

/-- C4: running the analysis loop from reset counters, if no outcome was
declared before frame k (all accumulated-confidence prefixes below 3) and
k is within the 15-frame window, then the outcome at frame k is success
exactly when the accumulated positive confidence over frames 0..k reaches
the threshold 3, is a miss exactly when it stays below 3 and k is the 15th
analyzed frame (k = 14), and in either of those cases the loop counters
are reset to 0. -/
theorem C4_confidence_threshold_and_timeout (cs : List ℚ) (k : ℕ)
    (hk : k < cs.length) (hk15 : k ≤ 14)
    (hprev : ∀ j, j < k → psum (cs.take (j + 1)) < 3) :
    ((runFrames ⟨0, 0⟩ (cs.take (k + 1))).2.getLast? = some .success ↔
      3 ≤ psum (cs.take (k + 1))) ∧
    ((runFrames ⟨0, 0⟩ (cs.take (k + 1))).2.getLast? = some .miss ↔
      (psum (cs.take (k + 1)) < 3 ∧ k = 14)) ∧
    ((3 ≤ psum (cs.take (k + 1)) ∨ k = 14) →
      (runFrames ⟨0, 0⟩ (cs.take (k + 1))).1 = ⟨0, 0⟩) := by
  obtain ⟨c, hc⟩ : ∃ c, cs[k]? = some c :=
    ⟨cs.get ⟨k, hk⟩, by rw [List.getElem?_eq_getElem hk]; rfl⟩
  have htake : cs.take (k + 1) = cs.take k ++ [c] := by
    rw [List.take_succ, hc]
    rfl
  have hlenk : (cs.take k).length = k := by
    rw [List.length_take]
    omega
  have hfirst : runFrames ⟨0, 0⟩ (cs.take k) =
      (⟨k, psum (cs.take k)⟩, List.replicate k .pending) := by
    have hcf : ∀ j, 1 ≤ j → j ≤ (cs.take k).length →
        (0 : ℚ) + psum ((cs.take k).take j) < 3 := by
      intro j hj1 hj2
      rw [List.take_take]
      rw [hlenk] at hj2
      have hmin : min j k = j := by omega
      rw [hmin]
      have := hprev (j - 1) (by omega)
      have hj1' : j - 1 + 1 = j := by omega
      rw [hj1'] at this
      simpa using this
    have := runFrames_pending (cs.take k) 0 0 (by omega) hcf
    simpa [hlenk] using this
  rw [htake, runFrames_append, hfirst]
  have hp1 : psum [c] = posPart c := by simp [psum]
  simp only [runFrames, stepConfidence, psum_append, hp1, accum_update]
  by_cases hacc : 3 ≤ psum (cs.take k) + posPart c
  · rw [if_pos hacc]
    refine ⟨⟨fun _ => hacc, fun _ => ?_⟩, ⟨fun h => ?_, fun h => ?_⟩,
      fun _ => rfl⟩
    · rw [getLast_append_one]
    · rw [getLast_append_one] at h
      exact absurd h (by simp)
    · exact absurd hacc (not_le.2 h.1)
  · rw [if_neg hacc]
    by_cases hk14 : k + 1 < 15
    · rw [if_pos hk14]
      refine ⟨⟨fun h => ?_, fun h => absurd h hacc⟩,
        ⟨fun h => ?_, fun h => ?_⟩, ?_⟩
      · rw [getLast_append_one] at h
        exact absurd h (by simp)
      · rw [getLast_append_one] at h
        exact absurd h (by simp)
      · exact absurd hk14 (by omega)
      · rintro (h | h)
        · exact absurd h hacc
        · exact absurd hk14 (by omega)
    · rw [if_neg hk14]
      refine ⟨⟨fun h => ?_, fun h => absurd h hacc⟩,
        ⟨fun _ => ⟨lt_of_not_le hacc, by omega⟩, fun _ => ?_⟩, fun _ => rfl⟩
      · rw [getLast_append_one] at h
        exact absurd h (by simp)
      · rw [getLast_append_one]

/-- C4 witness: a single frame of confidence 4 triggers success at frame 0
and the counters are reset. -/
theorem C4_witness :
    (runFrames ⟨0, 0⟩ ([(4 : ℚ)].take 1)).2.getLast? = some .success ∧
    (runFrames ⟨0, 0⟩ ([(4 : ℚ)].take 1)).1 = ⟨0, 0⟩ := by
  have h := C4_confidence_threshold_and_timeout [(4 : ℚ)] 0
    (by norm_num) (by norm_num) (fun j hj => absurd hj (Nat.not_lt_zero j))
  have h4 : (3 : ℚ) ≤ psum ([(4 : ℚ)].take 1) := by
    norm_num [psum, posPart]
  exact ⟨h.1.mpr h4, h.2.2 (Or.inl h4)⟩

/-! ## C3: fade envelope (tone_generators.cc, MultiToneGenerator::GetFadeMagnitude).

kHalfPi * frames_generated / fade_frames with the double constant kHalfPi
modelled exactly as pi/2.  frames_wanted, fade_frames, frames_generated
are C ints, modelled as integers. -/

/-- MultiToneGenerator::GetFadeMagnitude, as a function of the member
variables frames_wanted_, fade_frames_ and frames_generated_. -/
noncomputable def GetFadeMagnitude (frames_wanted fade_frames
    frames_generated : ℤ) : ℝ :=
  let frames_left := frames_wanted - frames_generated
  if frames_generated < fade_frames then
    Real.sin (Real.pi / 2 * frames_generated / fade_frames)
  else if frames_left < fade_frames then
    Real.sin (Real.pi / 2 * frames_left / fade_frames)
  else 1

/-- C3 counterexample: for a tone of L = 100 frames with fade window
F = 10 frames, the fade multiplier at the last frame L − 1 = 99 is
sin(pi/20) > 0, not the 0 the claim asserts. -/
theorem C3_last_frame_not_zero :
    GetFadeMagnitude 100 10 99 ≠ 0 := by
  have h1 : GetFadeMagnitude 100 10 99 = Real.sin (Real.pi / 2 * 1 / 10) := by
    unfold GetFadeMagnitude
    norm_num
  have h2 : (0 : ℝ) < Real.sin (Real.pi / 2 * 1 / 10) := by
    apply Real.sin_pos_of_pos_of_lt_pi
    · positivity
    · nlinarith [Real.pi_pos]
  rw [h1]
  exact ne_of_gt h2

/-- The fade angle is within the increasing quarter wave of sin. -/
lemma fade_angle_mem (F : ℤ) (hF : 0 < F) (n : ℤ) (h0 : 0 ≤ n) (h1 : n ≤ F) :
    Real.pi / 2 * n / F ∈ Set.Icc (-(Real.pi / 2)) (Real.pi / 2) := by
  have hFR : (0 : ℝ) < F := by exact_mod_cast hF
  have hnR : (0 : ℝ) ≤ n := by exact_mod_cast h0
  have h1R : (n : ℝ) ≤ F := by exact_mod_cast h1
  constructor
  · have : (0 : ℝ) ≤ Real.pi / 2 * n / F := by positivity
    linarith [Real.pi_pos]
  · calc Real.pi / 2 * n / F ≤ Real.pi / 2 * F / F := by gcongr
    _ = Real.pi / 2 := by
        field_simp
        ring

/-- C3 amended: for a tone of L frames with fade window F (0 < F,
F < L/4 i.e. 4F < L), the fade multiplier is 0 at frame 0, strictly
increases up to the value 1.0 at frame F, stays 1.0 from frame F through
frame L − F, and then falls symmetrically to the fade-in shifted by one
frame (the value at frame L − k equals the value at frame k for
1 ≤ k ≤ F); consequently frame L − 1 carries the small positive value
sin(pi/(2F)), not 0 — the zero of the fade-out lands one frame past the
end of the tone. -/
theorem C3_fade_envelope (L F : ℤ) (hF : 0 < F) (hL : 4 * F < L) :
    GetFadeMagnitude L F 0 = 0 ∧
    (∀ n m : ℤ, 0 ≤ n → n < m → m ≤ F →
      GetFadeMagnitude L F n < GetFadeMagnitude L F m) ∧
    (∀ n : ℤ, F ≤ n → n ≤ L - F → GetFadeMagnitude L F n = 1) ∧
    (∀ k : ℤ, 1 ≤ k → k ≤ F →
      GetFadeMagnitude L F (L - k) = GetFadeMagnitude L F k) ∧
    GetFadeMagnitude L F (L - 1) = Real.sin (Real.pi / 2 / F) ∧
    0 < GetFadeMagnitude L F (L - 1) := by
  have hFR : (0 : ℝ) < F := by exact_mod_cast hF
  have steady : ∀ n : ℤ, F ≤ n → n ≤ L - F → GetFadeMagnitude L F n = 1 := by
    intro n h1 h2
    unfold GetFadeMagnitude
    rw [if_neg (not_lt.2 h1), if_neg (by omega)]
  have fadein : ∀ n : ℤ, n < F →
      GetFadeMagnitude L F n = Real.sin (Real.pi / 2 * n / F) := by
    intro n hn
    unfold GetFadeMagnitude
    rw [if_pos hn]
  have mono : ∀ n m : ℤ, 0 ≤ n → n < m → m ≤ F →
      GetFadeMagnitude L F n < GetFadeMagnitude L F m := by
    intro n m h0 hnm hmF
    have hnF : n < F := lt_of_lt_of_le hnm hmF
    have hang : (Real.pi / 2 * n / F) < Real.pi / 2 * m / F := by
      have hmr : (n : ℝ) < m := by exact_mod_cast hnm
      gcongr
    rcases lt_or_eq_of_le hmF with hm | hm
    · rw [fadein n hnF, fadein m hm]
      exact Real.strictMonoOn_sin (fade_angle_mem F hF n h0 hnF.le)
        (fade_angle_mem F hF m (by omega) hm.le) hang
    · rw [fadein n hnF, hm, steady F le_rfl (by omega)]
      have hlt : Real.pi / 2 * n / F < Real.pi / 2 := by
        have hstep : Real.pi / 2 * n / F < Real.pi / 2 * F / F := by
          have hmr : (n : ℝ) < F := by exact_mod_cast hnF
          gcongr
        calc Real.pi / 2 * n / F < Real.pi / 2 * F / F := hstep
        _ = Real.pi / 2 := by rw [mul_div_assoc, div_self (ne_of_gt hFR), mul_one]
      have hmem : Real.pi / 2 ∈ Set.Icc (-(Real.pi / 2)) (Real.pi / 2) :=
        ⟨by linarith [Real.pi_pos], le_rfl⟩
      have := Real.strictMonoOn_sin (fade_angle_mem F hF n h0 hnF.le) hmem hlt
      rwa [Real.sin_pi_div_two] at this
  have mirror : ∀ k : ℤ, 1 ≤ k → k ≤ F →
      GetFadeMagnitude L F (L - k) = GetFadeMagnitude L F k := by
    intro k h1 hkF
    rcases lt_or_eq_of_le hkF with hk | hk
    · have hcast : ((L - (L - k) : ℤ) : ℝ) = (k : ℝ) := by push_cast; ring
      unfold GetFadeMagnitude
      rw [if_neg (by omega), if_pos (by omega), if_pos hk, hcast]
    · subst hk
      rw [steady (L - k) (by omega) (by omega), steady k le_rfl (by omega)]
  refine ⟨?_, mono, steady, mirror, ?_, ?_⟩
  · rw [fadein 0 hF]
    norm_num
  · rw [mirror 1 le_rfl hF]
    rcases lt_or_eq_of_le (show (1 : ℤ) ≤ F from hF) with h1F | h1F
    · rw [fadein 1 h1F]
      norm_num
    · rw [steady 1 (by omega) (by omega), ← h1F]
      rw [Int.cast_one, div_one, Real.sin_pi_div_two]
  · rw [mirror 1 le_rfl hF]
    have hpos : 0 < Real.sin (Real.pi / 2 / F) := by
      apply Real.sin_pos_of_pos_of_lt_pi
      · positivity
      · have h1 : (1 : ℝ) ≤ F := by exact_mod_cast hF
        calc Real.pi / 2 / F ≤ Real.pi / 2 / 1 := by gcongr
        _ < Real.pi := by linarith [Real.pi_pos]
    rcases lt_or_eq_of_le (show (1 : ℤ) ≤ F from hF) with h1F | h1F
    · rw [fadein 1 h1F]
      convert hpos using 2
      norm_num
    · rw [steady 1 (by omega) (by omega)]
      norm_num

/-- C3 witness: for L = 100, F = 10 the fade is 0 at frame 0 and 1.0 in
the steady region, e.g. at frame 50. -/
theorem C3_witness :
    GetFadeMagnitude 100 10 0 = 0 ∧ GetFadeMagnitude 100 10 50 = 1 := by
  have h := C3_fade_envelope 100 10 (by decide) (by decide)
  exact ⟨h.1, h.2.2.1 50 (by decide) (by decide)⟩

/-! ## C9: matched filter normalization (audiofuntest.cc,
Carrier::InitMatchedFilter).

The loop pushes data[b] for b in [lo, hi] into matched_filter while
accumulating the sum and the sum of squares; it then forms
mean = sum/size, std = sqrt(sumsq/size - mean*mean) (the population
standard deviation), and replaces every entry x by (x - mean) / std.
The window [lo, hi] is modelled as the list of its data values. -/

/-- The mean InitMatchedFilter computes over the window values. -/
noncomputable def windowMean (ws : List ℝ) : ℝ := ws.sum / ws.length

/-- The population standard deviation InitMatchedFilter computes:
sqrt(mean of squares - square of mean). -/
noncomputable def windowStd (ws : List ℝ) : ℝ :=
  Real.sqrt ((ws.map (fun x => x * x)).sum / ws.length -
    windowMean ws * windowMean ws)

/-- Carrier::InitMatchedFilter: the kernel built over the window values:
each entry gets the window mean subtracted and is divided by the window
standard deviation. -/
noncomputable def InitMatchedFilter (ws : List ℝ) : List ℝ :=
  ws.map (fun x => (x - windowMean ws) / windowStd ws)

lemma sum_map_sub_const (ws : List ℝ) (c : ℝ) :
    (ws.map (fun x => x - c)).sum = ws.sum - ws.length * c := by
  induction ws with
  | nil => simp
  | cons a l ih =>
      simp [ih]
      ring

lemma sum_map_div (ws : List ℝ) (f : ℝ → ℝ) (c : ℝ) :
    (ws.map (fun x => f x / c)).sum = (ws.map f).sum / c := by
  induction ws with
  | nil => simp
  | cons a l ih =>
      simp [ih]
      ring

lemma sum_map_sq_sub (ws : List ℝ) (c : ℝ) :
    (ws.map (fun x => (x - c) * (x - c))).sum =
      (ws.map (fun x => x * x)).sum - 2 * c * ws.sum +
        ws.length * (c * c) := by
  induction ws with
  | nil => simp
  | cons a l ih =>
      simp [ih]
      ring

/-- When two window values differ, the accumulated variance
sumsq/size - mean^2 is strictly positive. -/
lemma window_variance_pos (ws : List ℝ) (x y : ℝ) (hx : x ∈ ws)
    (hy : y ∈ ws) (hxy : x ≠ y) :
    0 < (ws.map (fun z => z * z)).sum / ws.length -
      windowMean ws * windowMean ws := by
  have hne : ws ≠ [] := by rintro rfl; exact absurd hx (by simp)
  have hn : 0 < ws.length := List.length_pos.2 hne
  have hnR : (0 : ℝ) < ws.length := by exact_mod_cast hn
  set μ := windowMean ws with hμdef
  have hsum : ws.sum = ws.length * μ := by
    rw [hμdef]
    unfold windowMean
    field_simp
  -- some member differs from the mean
  obtain ⟨z, hz, hzμ⟩ : ∃ z ∈ ws, z ≠ μ := by
    by_cases hxμ : x = μ
    · exact ⟨y, hy, fun h => hxy (hxμ.trans h.symm)⟩
    · exact ⟨x, hx, hxμ⟩
  have hterm : 0 < (z - μ) * (z - μ) :=
    mul_self_pos.2 (sub_ne_zero.2 hzμ)
  have hmem : (z - μ) * (z - μ) ∈ ws.map (fun w => (w - μ) * (w - μ)) :=
    List.mem_map_of_mem _ hz
  have hsumsq : 0 < (ws.map (fun w => (w - μ) * (w - μ))).sum := by
    have hle := List.single_le_sum
      (l := ws.map (fun w => (w - μ) * (w - μ)))
      (fun b hb => by
        obtain ⟨w, _, rfl⟩ := List.mem_map.1 hb
        exact mul_self_nonneg _) _ hmem
    linarith
  have hexp : (ws.map (fun w => (w - μ) * (w - μ))).sum =
      (ws.map (fun z => z * z)).sum - ws.length * (μ * μ) := by
    rw [sum_map_sq_sub, hsum]
    ring
  rw [hexp] at hsumsq
  have heq : (ws.map (fun z => z * z)).sum / ws.length - μ * μ =
      ((ws.map (fun z => z * z)).sum - ws.length * (μ * μ)) / ws.length := by
    field_simp
  rw [heq]
  exact div_pos hsumsq hnR

/-- C9: when the window values are not all equal, the matched-filter
kernel built by InitMatchedFilter has mean 0 and population standard
deviation 1 (exactly, in the real-number model of double arithmetic). -/
theorem C9_matched_filter_normalized (ws : List ℝ) (x y : ℝ)
    (hx : x ∈ ws) (hy : y ∈ ws) (hxy : x ≠ y) :
    windowMean (InitMatchedFilter ws) = 0 ∧
    windowStd (InitMatchedFilter ws) = 1 := by
  have hne : ws ≠ [] := by rintro rfl; exact absurd hx (by simp)
  have hn : 0 < ws.length := List.length_pos.2 hne
  have hnR : (0 : ℝ) < ws.length := by exact_mod_cast hn
  set μ := windowMean ws with hμdef
  set σ := windowStd ws with hσdef
  set V := (ws.map (fun z => z * z)).sum / ws.length - μ * μ with hVdef
  have hV : 0 < V := window_variance_pos ws x y hx hy hxy
  have hσ : σ = Real.sqrt V := rfl
  have hσpos : 0 < σ := by
    rw [hσ]
    exact Real.sqrt_pos.2 hV
  have hσsq : σ * σ = V := by
    rw [hσ]
    exact Real.mul_self_sqrt hV.le
  have hsum : ws.sum = ws.length * μ := by
    rw [hμdef]
    unfold windowMean
    field_simp
  have hlen : (InitMatchedFilter ws).length = ws.length := by
    unfold InitMatchedFilter
    exact List.length_map _ _
  have hfsum : (InitMatchedFilter ws).sum = 0 := by
    unfold InitMatchedFilter
    rw [← hμdef, ← hσdef]
    rw [sum_map_div, sum_map_sub_const, hsum]
    simp
  have hmean : windowMean (InitMatchedFilter ws) = 0 := by
    unfold windowMean
    rw [hfsum, hlen]
    simp
  refine ⟨hmean, ?_⟩
  have hsq : ((InitMatchedFilter ws).map (fun z => z * z)).sum =
      ws.length * V / (σ * σ) := by
    unfold InitMatchedFilter
    rw [← hμdef, ← hσdef, List.map_map]
    have hfun : ((fun z => z * z) ∘ fun w => (w - μ) / σ) =
        fun w => ((w - μ) * (w - μ)) / (σ * σ) := by
      funext w
      simp [Function.comp]
      ring
    rw [hfun, sum_map_div, sum_map_sq_sub, hsum]
    have : (ws.length : ℝ) * μ * μ * 2 = 2 * μ * (ws.length * μ) := by ring
    congr 1
    rw [hVdef]
    field_simp
    ring
  unfold windowStd
  rw [hmean, hsq, hlen, hσsq]
  have : (ws.length : ℝ) * V / V / ws.length - 0 * 0 = 1 := by
    field_simp
  rw [this]
  exact Real.sqrt_one

/-- C9 witness: the window [0, 2] yields a kernel with mean 0 and
standard deviation 1. -/
theorem C9_witness :
    windowMean (InitMatchedFilter [(0 : ℝ), 2]) = 0 ∧
    windowStd (InitMatchedFilter [(0 : ℝ), 2]) = 1 :=
  C9_matched_filter_normalized [(0 : ℝ), 2] 0 2 (by simp) (by simp)
    (by norm_num)

/-! ## CircularBuffer (alsa_client.h)

CircularBuffer<T> holds count cells, a write_ptr_ and a read_ptr_, both
advanced by 1 modulo count on the respective unlock.  LockCellToWrite
never blocks; LockCellToRead waits on the cell's condition variable while
read_ptr_ == write_ptr_.  The model below pairs each lock/unlock into one
atomic step (the mutex serializes them) and carries two ghost logs, the
values written and the values read, to state the FIFO property. -/

/-- State of a CircularBuffer<T>: the two cursors, the cell array, and
ghost histories of written and read values. -/
structure CBState (α : Type) where
  wp : ℕ
  rp : ℕ
  cells : List α
  written : List α
  readLog : List α

/-- A freshly constructed CircularBuffer(count, size): both cursors 0 and
count cells (each cell's bytes abstracted to one value). -/
def CBinit (α : Type) [Inhabited α] (count : ℕ) : CBState α :=
  ⟨0, 0, List.replicate count default, [], []⟩

/-- LockCellToWrite followed by UnlockCellToWrite by the single producer:
stores v in cell_[write_ptr_], then write_ptr_ = (write_ptr_+1) % count
and the cell's condition variable is signalled. -/
def writeCell {α : Type} (s : CBState α) (v : α) : CBState α :=
  { s with
    cells := s.cells.set s.wp v
    wp := (s.wp + 1) % s.cells.length
    written := s.written ++ [v] }

/-- The guard of LockCellToRead: the reader stays in the condition-variable
wait loop while read_ptr_ == write_ptr_, so the read can proceed exactly
when the two cursors differ. -/
def ReadEnabled {α : Type} (s : CBState α) : Prop := s.rp ≠ s.wp

instance {α : Type} (s : CBState α) : Decidable (ReadEnabled s) :=
  inferInstanceAs (Decidable (s.rp ≠ s.wp))

/-- LockCellToRead followed by UnlockCellToRead by the single consumer:
returns the cell at read_ptr_, then read_ptr_ = (read_ptr_+1) % count. -/
def readCell {α : Type} [Inhabited α] (s : CBState α) : CBState α :=
  { s with
    readLog := s.readLog ++ [s.cells.getD s.rp default]
    rp := (s.rp + 1) % s.cells.length }

/-- One producer or consumer operation.  The write step carries the
no-overflow side condition of the FIFO claim: LockCellToWrite never
blocks, so a write while all cells hold unread data would silently
overwrite the oldest one; the relation covers the traces where that has
not occurred. -/
inductive CBStep {α : Type} [Inhabited α] : CBState α → CBState α → Prop
  | write (s : CBState α) (v : α)
      (hov : s.written.length - s.readLog.length < s.cells.length) :
      CBStep s (writeCell s v)
  | read (s : CBState α) (h : ReadEnabled s) :
      CBStep s (readCell s)

/-- States reachable from a fresh CircularBuffer by overflow-free steps. -/
inductive CBReach {α : Type} [Inhabited α] (count : ℕ) : CBState α → Prop
  | init : CBReach count (CBinit α count)
  | step {s t : CBState α} : CBReach count s → CBStep s t → CBReach count t

lemma getD_set_self {α : Type} (l : List α) (i : ℕ) (v d : α)
    (h : i < l.length) : (l.set i v).getD i d = v := by
  rw [List.getD_eq_getElem?_getD, List.getElem?_set_self h]
  rfl

lemma getD_set_ne {α : Type} (l : List α) (i j : ℕ) (v d : α) (h : i ≠ j) :
    (l.set i v).getD j d = l.getD j d := by
  rw [List.getD_eq_getElem?_getD, List.getElem?_set_ne h,
    ← List.getD_eq_getElem?_getD]

lemma getD_append_lt {α : Type} (l l2 : List α) (j : ℕ) (d : α)
    (h : j < l.length) : (l ++ l2).getD j d = l.getD j d := by
  rw [List.getD_eq_getElem?_getD, List.getElem?_append_left h,
    ← List.getD_eq_getElem?_getD]

lemma getD_append_length {α : Type} (l : List α) (v d : α) :
    (l ++ [v]).getD l.length d = v := by
  rw [List.getD_eq_getElem?_getD, List.getElem?_append_right le_rfl]
  simp

lemma take_succ_getD {α : Type} (l : List α) (n : ℕ) (d : α)
    (h : n < l.length) : l.take (n + 1) = l.take n ++ [l.getD n d] := by
  rw [List.take_succ, List.getD_eq_getElem?_getD, List.getElem?_eq_getElem h]
  rfl

/-- The inductive invariant of an overflow-free CircularBuffer: the cell
count is fixed, the reader never passes the writer, at most count writes
are unread, the cursors are the histories' lengths mod count, the values
read so far are exactly the first writes in order, and every
written-but-unread value still sits in its cell. -/
def CBInv {α : Type} [Inhabited α] (count : ℕ) (s : CBState α) : Prop :=
  s.cells.length = count ∧
  s.readLog.length ≤ s.written.length ∧
  s.written.length - s.readLog.length ≤ count ∧
  s.wp = s.written.length % count ∧
  s.rp = s.readLog.length % count ∧
  s.readLog = s.written.take s.readLog.length ∧
  ∀ j, s.readLog.length ≤ j → j < s.written.length →
    s.cells.getD (j % count) default = s.written.getD j default

lemma cbinv_write {α : Type} [Inhabited α] {count : ℕ} {s : CBState α}
    (ih : CBInv count s) (v : α)
    (hov : s.written.length - s.readLog.length < s.cells.length) :
    CBInv count (writeCell s v) := by
  obtain ⟨i1, i2, i3, i4, i5, i6, i7⟩ := ih
  rw [i1] at hov
  have hcpos : 0 < count := by omega
  refine ⟨by simp [writeCell, i1], ?_, ?_, ?_, ?_, ?_, ?_⟩
  · simp only [writeCell, List.length_append, List.length_singleton]
    omega
  · simp only [writeCell, List.length_append, List.length_singleton]
    omega
  · simp only [writeCell, List.length_set, List.length_append,
      List.length_singleton, i1, i4]
    rw [Nat.mod_add_mod]
  · simpa [writeCell] using i5
  · simp only [writeCell]
    exact i6.trans (List.take_append_of_le_length i2).symm
  · intro j hj1 hj2
    simp only [writeCell] at hj1 hj2 ⊢
    simp only [List.length_append, List.length_singleton] at hj2
    rcases Nat.lt_succ_iff_lt_or_eq.1 hj2 with hjlt | hjeq
    · have hne : s.wp ≠ j % count := by
        rw [i4]
        intro hmod
        have hmodeq : j ≡ s.written.length [MOD count] := hmod.symm
        have hdvd : count ∣ s.written.length - j :=
          (Nat.modEq_iff_dvd' (by omega)).1 hmodeq
        have := Nat.eq_zero_of_dvd_of_lt hdvd (by omega)
        omega
      rw [getD_set_ne _ _ _ _ _ hne, getD_append_lt _ _ _ _ hjlt]
      exact i7 j hj1 hjlt
    · subst hjeq
      rw [i4]
      rw [getD_set_self _ _ _ _ (by rw [i1]; exact Nat.mod_lt _ hcpos),
        getD_append_length]

lemma cbinv_read {α : Type} [Inhabited α] {count : ℕ} {s : CBState α}
    (ih : CBInv count s) (hre : ReadEnabled s) :
    CBInv count (readCell s) := by
  obtain ⟨i1, i2, i3, i4, i5, i6, i7⟩ := ih
  have hrl : s.readLog.length < s.written.length := by
    rcases Nat.lt_or_ge s.readLog.length s.written.length with h | h
    · exact h
    · exact absurd (by rw [i5, i4, le_antisymm i2 h] : s.rp = s.wp) hre
  have hval : s.cells.getD s.rp default =
      s.written.getD s.readLog.length default := by
    rw [i5]
    exact i7 s.readLog.length le_rfl hrl
  refine ⟨by simp [readCell, i1], ?_, ?_, ?_, ?_, ?_, ?_⟩
  · simp only [readCell, List.length_append, List.length_singleton]
    omega
  · simp only [readCell, List.length_append, List.length_singleton]
    omega
  · simpa [readCell] using i4
  · show (s.rp + 1) % s.cells.length =
      (s.readLog ++ [s.cells.getD s.rp default]).length % count
    rw [i1, i5, List.length_append, List.length_singleton, Nat.mod_add_mod]
  · show s.readLog ++ [s.cells.getD s.rp default] =
      List.take (s.readLog ++ [s.cells.getD s.rp default]).length s.written
    rw [List.length_append, List.length_singleton, hval,
      take_succ_getD s.written s.readLog.length default hrl, ← i6]
  · intro j hj1 hj2
    simp only [readCell, List.length_append, List.length_singleton] at hj1 hj2 ⊢
    exact i7 j (by omega) hj2

lemma cbreach_inv {α : Type} [Inhabited α] {count : ℕ} {s : CBState α}
    (h : CBReach count s) : CBInv count s := by
  induction h with
  | init =>
      refine ⟨by simp [CBinit], by simp [CBinit], by simp [CBinit],
        by simp [CBinit], by simp [CBinit], by simp [CBinit], ?_⟩
      intro j h1 h2
      simp [CBinit] at h2
  | step hr hstep ih =>
      cases hstep with
      | write v hov => exact cbinv_write ih v hov
      | read hre => exact cbinv_read ih hre


/-- C5: along any overflow-free trace with one writer and one reader, the
sequence of values the reader has observed is exactly the prefix of the
sequence of values the writer produced (FIFO, no skip, no reorder), and
the two cursors advance by 1 mod count per completed operation (they equal
the operation counts mod count). -/
theorem C5_fifo_order {α : Type} [Inhabited α] (count : ℕ) (s : CBState α)
    (h : CBReach count s) :
    s.readLog = s.written.take s.readLog.length ∧
    s.wp = s.written.length % count ∧
    s.rp = s.readLog.length % count := by
  obtain ⟨_, _, _, i4, i5, i6, _⟩ := cbreach_inv h
  exact ⟨i6, i4, i5⟩

/-- C5 witness: a 2-cell ring after one write of 5 and one read. -/
def cbW2 : CBState ℤ := readCell (writeCell (CBinit ℤ 2) 5)

theorem C5_witness :
    cbW2.readLog = cbW2.written.take cbW2.readLog.length ∧
    cbW2.wp = cbW2.written.length % 2 ∧
    cbW2.rp = cbW2.readLog.length % 2 :=
  C5_fifo_order 2 cbW2
    (CBReach.step
      (CBReach.step CBReach.init (CBStep.write (CBinit ℤ 2) 5 (by decide)))
      (CBStep.read (writeCell (CBinit ℤ 2) 5) (by decide)))

/-! ## C6: reader blocking.

A reader is blocked exactly while read_ptr_ == write_ptr_.  On a fresh
ring nothing is written and the cursors coincide, so the reader waits; a
read that proceeds returns a value the writer wrote.  But the tail of the
claim — after the first write completes the reader returns the cell at
read_ptr_ — fails for a 1-cell ring: the write advances write_ptr_ back
onto read_ptr_, so the reader is still blocked after the write. -/

/-- C6 counterexample: on a ring with a single cell, a reader is still
blocked (read_ptr_ == write_ptr_) after the first write completes, so it
does not return the just-written cell as the claim asserts. -/
theorem C6_one_cell_still_blocked :
    ¬ ReadEnabled (writeCell (CBinit ℤ 1) 9) := by
  decide

/-- C6 amended: a reader on a fresh ring (no write yet) is blocked; any
read that proceeds from a reachable state observes exactly the next
written-but-unread value (never an unwritten cell); and provided the ring
has at least two cells, after the first write completes the reader is
unblocked and returns that written value from the cell at read_ptr_. -/
theorem C6_reader_blocking {α : Type} [Inhabited α] (count : ℕ) (v : α)
    (s : CBState α) (hs : CBReach count s) :
    (¬ ReadEnabled (CBinit α count)) ∧
    (ReadEnabled s →
      s.readLog.length < s.written.length ∧
      (readCell s).readLog =
        s.readLog ++ [s.written.getD s.readLog.length default]) ∧
    (2 ≤ count →
      ReadEnabled (writeCell (CBinit α count) v) ∧
      (readCell (writeCell (CBinit α count) v)).readLog = [v]) := by
  refine ⟨?_, ?_, ?_⟩
  · simp [ReadEnabled, CBinit]
  · intro hre
    obtain ⟨i1, i2, i3, i4, i5, i6, i7⟩ := cbreach_inv hs
    have hrl : s.readLog.length < s.written.length := by
      rcases Nat.lt_or_ge s.readLog.length s.written.length with h | h
      · exact h
      · exact absurd (by rw [i5, i4, le_antisymm i2 h] : s.rp = s.wp) hre
    refine ⟨hrl, ?_⟩
    simp only [readCell]
    rw [i5, i7 s.readLog.length le_rfl hrl]
  · intro hcount
    constructor
    · simp only [ReadEnabled, writeCell, CBinit, List.length_replicate]
      rw [Nat.mod_eq_of_lt (by omega)]
      omega
    · simp only [readCell, writeCell, CBinit]
      rw [getD_set_self _ _ _ _ (by simp; omega)]
      rfl

/-- C6 witness: on a 2-cell ring, the fresh reader is blocked and, once 9
is written, a read returns 9. -/
theorem C6_witness :
    (¬ ReadEnabled (CBinit ℤ 2)) ∧
    (2 ≤ 2 → ReadEnabled (writeCell (CBinit ℤ 2) 9) ∧
      (readCell (writeCell (CBinit ℤ 2) 9)).readLog = [9]) := by
  have h := C6_reader_blocking 2 (9 : ℤ) (CBinit ℤ 2) CBReach.init
  exact ⟨h.1, fun _ => h.2.2 (by omega)⟩

/-! ## C7: bounded producer/consumer ring of looptest.c.

cap_loop (writer) and play_loop (reader) share write_index, read_index,
write_available, read_available under buf_mutex.  Each loop iteration
claims a buffer under the mutex, releases the mutex for the pcm_io call,
and reacquires it to publish completion; the model makes each mutex-held
section one atomic step.  write_available/read_available are C ints
(modelled as integers — read_available can transiently go negative in the
overflow path), the indices stay in [0, buffer_count).  wTotal and rAdv
are ghost counters of writer claims and of read_index advancements used
to state the invariant. -/

/-- Shared state of looptest.c's buffer ring, plus two ghost counters. -/
structure LTState where
  write_index : ℕ
  read_index : ℕ
  write_available : ℤ
  read_available : ℤ
  writerBusy : Bool
  readerBusy : Bool
  wTotal : ℕ
  rAdv : ℕ

/-- init_buffers: read_index = write_index = 0, read_available = 0,
write_available = buffer_count. -/
def initBuffers (N : ℕ) : LTState :=
  ⟨0, 0, (N : ℤ), 0, false, false, 0, 0⟩

/-- The writer's claim step in cap_loop: if no buffer is available to
write, the oldest unread buffer is dropped (read_index advanced,
read_available decremented) instead of blocking; otherwise
write_available is decremented.  The claimed buffer is buf_cap =
write_index, and write_index advances mod buffer_count. -/
def capClaim (N : ℕ) (s : LTState) : LTState × ℕ :=
  let s1 := if s.write_available = 0 then
      { s with
        read_index := (s.read_index + 1) % N
        read_available := s.read_available - 1
        rAdv := s.rAdv + 1 }
    else { s with write_available := s.write_available - 1 }
  ({ s1 with
      write_index := (s1.write_index + 1) % N
      writerBusy := true
      wTotal := s1.wTotal + 1 }, s1.write_index)

/-- The writer's completion in cap_loop after pcm_io: read_available++
and the condition variable is signalled. -/
def capComplete (s : LTState) : LTState :=
  { s with read_available := s.read_available + 1, writerBusy := false }

/-- The reader's claim step in play_loop (possible only once
read_available is nonzero): buf_play = read_index, read_index advances
mod buffer_count, read_available is decremented. -/
def playClaim (N : ℕ) (s : LTState) : LTState × ℕ :=
  ({ s with
      read_index := (s.read_index + 1) % N
      read_available := s.read_available - 1
      readerBusy := true
      rAdv := s.rAdv + 1 }, s.read_index)

/-- The reader's completion in play_loop after pcm_io: write_available++. -/
def playComplete (s : LTState) : LTState :=
  { s with write_available := s.write_available + 1, readerBusy := false }

/-- 1 for a busy flag, 0 otherwise. -/
def boolToInt (b : Bool) : ℤ := if b then 1 else 0

/-- One mutex-held section of either loop.  The model is permissive about
when the reader runs (the real play_loop additionally waits for half the
buffers to fill before its first claim), so its reachable states include
all real ones. -/
inductive LTStep (N : ℕ) : LTState → LTState → Prop
  | capClaim (s : LTState) (h : s.writerBusy = false) :
      LTStep N s (capClaim N s).1
  | capComplete (s : LTState) (h : s.writerBusy = true) :
      LTStep N s (capComplete s)
  | playClaim (s : LTState) (h : s.readerBusy = false)
      (hra : s.read_available ≠ 0) : LTStep N s (playClaim N s).1
  | playComplete (s : LTState) (h : s.readerBusy = true) :
      LTStep N s (playComplete s)

/-- States reachable from init_buffers. -/
inductive LTReach (N : ℕ) : LTState → Prop
  | init : LTReach N (initBuffers N)
  | step {s t : LTState} : LTReach N s → LTStep N s t → LTReach N t

/-- The inductive invariant of the looptest ring: the indices are the
ghost counters mod N, and the two availability counters are determined by
the ghost counters and the busy flags. -/
def LTInv (N : ℕ) (s : LTState) : Prop :=
  s.write_index = s.wTotal % N ∧
  s.read_index = s.rAdv % N ∧
  s.read_available = (s.wTotal : ℤ) - boolToInt s.writerBusy - s.rAdv ∧
  s.write_available = (N : ℤ) - s.wTotal + s.rAdv - boolToInt s.readerBusy

lemma boolToInt_true : boolToInt true = 1 := rfl

lemma boolToInt_false : boolToInt false = 0 := rfl

lemma ltinv_capClaim {N : ℕ} {s : LTState} (ih : LTInv N s)
    (hwb : s.writerBusy = false) : LTInv N (capClaim N s).1 := by
  obtain ⟨i1, i2, i3, i4⟩ := ih
  rw [hwb, boolToInt_false] at i3
  simp only [capClaim]
  split
  · rename_i hwa
    refine ⟨?_, ?_, ?_, ?_⟩ <;> dsimp only
    · rw [i1, Nat.mod_add_mod]
    · rw [i2, Nat.mod_add_mod]
    · rw [boolToInt_true, i3]
      push_cast
      ring
    · rw [hwa]
      push_cast
      linarith [i4]
  · refine ⟨?_, ?_, ?_, ?_⟩ <;> dsimp only
    · rw [i1, Nat.mod_add_mod]
    · exact i2
    · rw [boolToInt_true, i3]
      push_cast
      ring
    · rw [i4]
      push_cast
      ring

lemma ltinv_capComplete {N : ℕ} {s : LTState} (ih : LTInv N s)
    (hwb : s.writerBusy = true) : LTInv N (capComplete s) := by
  obtain ⟨i1, i2, i3, i4⟩ := ih
  rw [hwb, boolToInt_true] at i3
  refine ⟨i1, i2, ?_, ?_⟩
  · simp only [capComplete, boolToInt_false]
    omega
  · simpa [capComplete] using i4

lemma ltinv_playClaim {N : ℕ} {s : LTState} (ih : LTInv N s)
    (hrb : s.readerBusy = false) : LTInv N (playClaim N s).1 := by
  obtain ⟨i1, i2, i3, i4⟩ := ih
  rw [hrb, boolToInt_false] at i4
  refine ⟨i1, ?_, ?_, ?_⟩
  · simp only [playClaim, i2, Nat.mod_add_mod]
  · simp only [playClaim]
    rw [i3]
    push_cast
    ring
  · simp only [playClaim, boolToInt_true]
    rw [i4]
    push_cast
    ring

lemma ltinv_playComplete {N : ℕ} {s : LTState} (ih : LTInv N s)
    (hrb : s.readerBusy = true) : LTInv N (playComplete s) := by
  obtain ⟨i1, i2, i3, i4⟩ := ih
  rw [hrb, boolToInt_true] at i4
  refine ⟨i1, i2, ?_, ?_⟩
  · simpa [playComplete] using i3
  · simp only [playComplete, boolToInt_false]
    omega

lemma ltreach_inv {N : ℕ} {s : LTState} (h : LTReach N s) : LTInv N s := by
  induction h with
  | init =>
      exact ⟨rfl, rfl, by simp [initBuffers, boolToInt],
        by simp [initBuffers, boolToInt]⟩
  | step hr hstep ih =>
      cases hstep with
      | capClaim hwb => exact ltinv_capClaim ih hwb
      | capComplete hwb => exact ltinv_capComplete ih hwb
      | playClaim hrb hra => exact ltinv_playClaim ih hrb
      | playComplete hrb => exact ltinv_playComplete ih hrb

/-- C7: in any reachable state of the looptest ring where neither loop is
inside a pcm_io call and the writer finds no write-available buffer
(write_available = 0), the writer's claim step force-advances the
reader's position by one mod N, decrements read_available, and claims
exactly the buffer at the old write_index — which at that moment is the
reader's position, i.e. the buffer just freed by dropping the oldest
unread data.  The claim step is total: the producer never blocks. -/
theorem C7_overflow_drops_oldest (N : ℕ) (hN : 0 < N) (s : LTState)
    (hs : LTReach N s) (hwB : s.writerBusy = false)
    (hrB : s.readerBusy = false) (hfull : s.write_available = 0) :
    (capClaim N s).1.read_index = (s.read_index + 1) % N ∧
    (capClaim N s).1.read_available = s.read_available - 1 ∧
    (capClaim N s).2 = s.write_index ∧
    s.write_index = s.read_index := by
  obtain ⟨i1, i2, i3, i4⟩ := ltreach_inv hs
  have hwt : s.wTotal = s.rAdv + N := by
    rw [hfull, hrB, boolToInt_false] at i4
    omega
  refine ⟨?_, ?_, ?_, ?_⟩
  · simp only [capClaim, if_pos hfull]
  · simp only [capClaim, if_pos hfull]
  · simp only [capClaim, if_pos hfull]
  · rw [i1, i2, hwt, Nat.add_mod_right]

/-- C7 witness: with a single buffer, after one completed capture the
ring is full; the next writer claim drops the oldest unread buffer and
reuses buffer 0, which is both the write and the read position. -/
def ltFull : LTState := capComplete (capClaim 1 (initBuffers 1)).1

theorem C7_witness :
    (capClaim 1 ltFull).1.read_index = (ltFull.read_index + 1) % 1 ∧
    (capClaim 1 ltFull).1.read_available = ltFull.read_available - 1 ∧
    (capClaim 1 ltFull).2 = ltFull.write_index ∧
    ltFull.write_index = ltFull.read_index :=
  C7_overflow_drops_oldest 1 (by decide) ltFull
    (LTReach.step
      (LTReach.step LTReach.init (LTStep.capClaim (initBuffers 1) (by decide)))
      (LTStep.capComplete (capClaim 1 (initBuffers 1)).1 (by decide)))
    (by decide) (by decide) (by decide)

end AutotestAudio
